import Mathlib

/-!
Verification of the gotrie prefix trie (`prefix.go`, package gotrie).

The Go code is a 256-way byte trie with in-place pointer mutation.  Every
node owns its children (a `[256]*pnode` array), so the heap graph is a
finite tree and the code embeds faithfully as pure functions on an
inductive tree type:

* `pnode`            ↦ `PNode V` (children as a total function
                       `Byte → Option (PNode V)`, `nil` ↦ `none`);
* `interface{}` value ↦ `Option V` (`nil` ↦ `none`; Go's zero value of an
                       interface field is `nil`);
* `PrefixTrie`       ↦ `PrefixTrie V` (root node plus the `bookmarks`
                       stack used by `Scan`; the Lean list's head is the
                       top of the Go stack, i.e. the last slice element);
* in-place update of a node on a walk ↦ rebuilding the path, i.e.
  structural recursion on the key whose unwinding is exactly the Go
  code's backward walk over its bookmark stack.

`Scan` is a pair of nested loops without a structural decrease, so it is
embedded step-for-step as a fuel-indexed function `scanGo`; one unit of
fuel corresponds to one iteration of one of the two Go loops, and the
fuel actually supplied (`scanFuel`) is proved sufficient, which is the
termination argument for the Go loops.
-/

namespace Gotrie

/-- A key byte.  Go strings are read byte by byte (`[]byte(key)`). -/
abbrev Byte := Fin 256

/-- Go struct `pnode`: `children [256]*pnode`, `value interface{}`,
`valid bool`.  The children array is a total function from byte values to
optional child nodes. -/
inductive PNode (V : Type) : Type where
  | mk (children : Byte → Option (PNode V)) (value : Option V) (valid : Bool)

namespace PNode

variable {V : Type}

/-- Field `children` of `pnode`. -/
def children : PNode V → Byte → Option (PNode V)
  | mk c _ _ => c

/-- Field `value` of `pnode`. -/
def value : PNode V → Option V
  | mk _ v _ => v

/-- Field `valid` of `pnode`. -/
def valid : PNode V → Bool
  | mk _ _ b => b

@[simp] theorem children_mk (c : Byte → Option (PNode V)) (v : Option V) (b : Bool) :
    (PNode.mk c v b).children = c := rfl

@[simp] theorem value_mk (c : Byte → Option (PNode V)) (v : Option V) (b : Bool) :
    (PNode.mk c v b).value = v := rfl

@[simp] theorem valid_mk (c : Byte → Option (PNode V)) (v : Option V) (b : Bool) :
    (PNode.mk c v b).valid = b := rfl

theorem eta : ∀ n : PNode V, PNode.mk n.children n.value n.valid = n
  | mk _ _ _ => rfl

end PNode

variable {V : Type}

/-- Go `new(pnode)`: the zero value — no children, `nil` value, `valid = false`. -/
def newPnode : PNode V := .mk (fun _ => none) none false

/-- The child-existence test of `Delete`'s cleanup loop
(`for i := 0; i < 256 { if bm.n.children[i] != nil { ... } }`). -/
def hasChildF (ch : Byte → Option (PNode V)) : Bool :=
  (List.finRange 256).any fun j => (ch j).isSome

/-- Whether a node has at least one child. -/
def PNode.hasChild (n : PNode V) : Bool := hasChildF n.children

/-- Go struct `pbookmark`: node pointer `n`, collected key bytes
(the Go field is the slice `prefix`, renamed `pre` here), and the cursor
index `k : uint16` (values `0..256` are the ones the code produces). -/
structure Pbookmark (V : Type) where
  n : PNode V
  pre : List Byte
  k : Nat

/-- Go struct `PrefixTrie`: the root node and the bookmark stack used by
`Scan`.  The head of `bookmarks` is the top of the Go slice-stack. -/
structure PrefixTrie (V : Type) where
  root : PNode V
  bookmarks : List (Pbookmark V)

/-- Go `NewPrefixTrie()`: fresh root, no bookmarks. -/
def NewPrefixTrie : PrefixTrie V := ⟨newPnode, []⟩

/-- The walk shared by `Find` and the forward phase of `Delete`:
follow one child per key byte, `none` when a required child is missing. -/
def findNode : PNode V → List Byte → Option (PNode V)
  | n, [] => some n
  | n, b :: ks =>
    match n.children b with
    | none => none
    | some c => findNode c ks

/-- Go `Find` on a node: missing child gives `(nil, false)`; a completed
walk returns the final node's `value` and `valid` fields. -/
def findValue (n : PNode V) (key : List Byte) : Option V × Bool :=
  match findNode n key with
  | none => (none, false)
  | some m => (m.value, m.valid)

/-- Go method `(*PrefixTrie).Find`. -/
def PrefixTrie.Find (t : PrefixTrie V) (key : List Byte) : Option V × Bool :=
  findValue t.root key

/-- Whether `key` is currently stored below `n` (the boolean `Find` returns). -/
def foundB (n : PNode V) (key : List Byte) : Bool :=
  match findNode n key with
  | none => false
  | some m => m.valid

/-- Go `Insert` on a node.  The Go code walks while children exist and
then appends fresh nodes (`new(pnode)`) for the remaining bytes; the
recursion below does the same one byte at a time: an existing child is
descended into, a missing one is created as the zero node, and the node
at the end of the key gets `value`/`valid` set.  Rebuilding the path on
the way out of the recursion models the in-place pointer writes. -/
def insertNode (n : PNode V) (key : List Byte) (v : V) : PNode V :=
  match key with
  | [] => .mk n.children (some v) true
  | b :: ks =>
    let c := match n.children b with
      | some c => c
      | none => newPnode
    .mk (Function.update n.children b (some (insertNode c ks v))) n.value n.valid

/-- Go method `(*PrefixTrie).Insert`. -/
def PrefixTrie.Insert (t : PrefixTrie V) (key : List Byte) (v : V) : PrefixTrie V :=
  ⟨insertNode t.root key v, t.bookmarks⟩

/-- Go `Delete` below one node.  `none` means the forward walk hit a
missing child (`key` absent, no mutation).  Otherwise
`some (n', prunable, found)` returns the updated node, whether this node
is now non-`valid` and childless (in Go: the backward cleanup loop pops
this node's bookmark, unlinks it from its parent and continues), and the
`wasValid` result.  The Go order — unlink the child first, then test the
parent's `valid` flag and children — is mirrored: the parent's test uses
its post-unlink children.  When `wasValid` is false the Go code returns
before the cleanup loop, hence `prunable = false` on that path. -/
def deleteNode (n : PNode V) : List Byte → Option (PNode V × Bool × Bool)
  | [] =>
    let n' : PNode V := .mk n.children n.value false
    if n.valid then some (n', !n'.hasChild, true)
    else some (n', false, false)
  | b :: ks =>
    match n.children b with
    | none => none
    | some c =>
      match deleteNode c ks with
      | none => none
      | some (c', cprune, found) =>
        if cprune then
          let ch' := Function.update n.children b none
          some (.mk ch' n.value n.valid, !n.valid && !hasChildF ch', found)
        else
          some (.mk (Function.update n.children b (some c')) n.value n.valid, false, found)

/-- Go method `(*PrefixTrie).Delete`.  The root bookmark is popped last
with `bi == 0` and is never unlinked or pruned, so the root's `prunable`
flag is ignored.  `Delete` uses a local bookmark stack and never touches
`t.bookmarks`. -/
def PrefixTrie.Delete (t : PrefixTrie V) (key : List Byte) : PrefixTrie V × Bool :=
  match deleteNode t.root key with
  | none => (t, false)
  | some (r, _, found) => (⟨r, t.bookmarks⟩, found)

/-- Helper for `nextChild`: `gas` counts the at most `256 - k` slots
still to inspect, so that the recursion is structural (and hence
computes by kernel reduction). -/
def nextChildGo (n : PNode V) : Nat → Nat → Option (Byte × PNode V)
  | _, 0 => none
  | k, gas + 1 =>
    if h : k < 256 then
      match n.children ⟨k, h⟩ with
      | some c => some (⟨k, h⟩, c)
      | none => nextChildGo n (k + 1) gas
    else none

/-- The inner loop of `Scan` (`for ; bm.k < 256; bm.k++`): the first
index `j ≥ k` holding a child, together with that child. -/
def nextChild (n : PNode V) (k : Nat) : Option (Byte × PNode V) :=
  nextChildGo n k (256 - k)

/-- Result of running the `Scan` loops with a given amount of fuel:
either the Go function returns (`out` carries the final bookmark stack
and the boolean result), or the fuel ran out mid-loop (`spin`). -/
inductive ScanRes (V : Type) where
  | out (stack : List (Pbookmark V)) (found : Bool)
  | spin

/-- The two nested loops of Go `Scan`, one loop iteration per unit of
fuel.  `phase = true` is the labelled `outer` loop body starting at the
inner child-search; `phase = false` is the backtracking loop
`for bm.k == 256`.  The stack's head is the top bookmark `bm`.

* descend: a child at index `j` advances the top bookmark's `k` to `j`
  (the inner loop's increments) and pushes a bookmark for the child with
  `prefix` extended by `byte(j)` and `k = 0`; if the child is `valid`,
  `Scan` returns true.
* no child: the inner loop leaves `k = 256` stored in the top bookmark
  and control falls into the backtracking loop.
* backtrack on a single bookmark: `itop` becomes `-1` and the Go code
  returns false at once, leaving that bookmark (with `k = 256`) in
  `t.bookmarks` — the stack is deliberately not cleared here, exactly as
  in the source.
* backtrack with a parent below: the top is dropped; a parent whose `k`
  is already `256` keeps backtracking, otherwise `bm.k++` and the outer
  loop resumes. -/
def scanGo : Nat → Bool → List (Pbookmark V) → ScanRes V
  | 0, _, _ => .spin
  | _ + 1, _, [] => .out [] false
  | f + 1, true, bm :: rest =>
    match nextChild bm.n bm.k with
    | some (j, c) =>
      let s' := ⟨c, bm.pre ++ [j], 0⟩ :: ⟨bm.n, bm.pre, j.val⟩ :: rest
      if c.valid then .out s' true else scanGo f true s'
    | none => scanGo f false (⟨bm.n, bm.pre, 256⟩ :: rest)
  | f + 1, false, bm :: rest =>
    match rest with
    | [] => .out [bm] false
    | nxt :: r2 =>
      if nxt.k == 256 then scanGo f false (nxt :: r2)
      else scanGo f true (⟨nxt.n, nxt.pre, nxt.k + 1⟩ :: r2)

mutual
/-- Number of child links in the subtree below a node; the decreasing
measure justifying that `Scan`'s loops terminate. -/
def weight : PNode V → Nat
  | .mk ch _ _ => Finset.univ.sum fun j : Byte => weightO (ch j)
/-- Weight of an optional child: `1 +` subtree weight when present. -/
def weightO : Option (PNode V) → Nat
  | none => 0
  | some c => 1 + weight c
end

/-- Helper for `weightFrom`, with structural gas like `nextChildGo`. -/
def weightFromGo (n : PNode V) : Nat → Nat → Nat
  | _, 0 => 0
  | k, gas + 1 =>
    if h : k < 256 then weightO (n.children ⟨k, h⟩) + weightFromGo n (k + 1) gas else 0

/-- Remaining weight of a node from child index `k` upward: the work the
inner loop of `Scan` can still find at this bookmark. -/
def weightFrom (n : PNode V) (k : Nat) : Nat :=
  weightFromGo n k (256 - k)

/-- Remaining weight of the non-top bookmarks: when such a bookmark is
revisited its `k` is first incremented past the child currently being
traversed. -/
def stackWAux : List (Pbookmark V) → Nat
  | [] => 0
  | bm :: rest => weightFrom bm.n (bm.k + 1) + stackWAux rest

/-- Remaining weight of a whole bookmark stack (top bookmark counted
from its current `k`). -/
def stackW : List (Pbookmark V) → Nat
  | [] => 0
  | bm :: rest => weightFrom bm.n bm.k + stackWAux rest

/-- Fuel that provably suffices for `scanGo` from a given phase and
stack. -/
def scanBound (phase : Bool) (s : List (Pbookmark V)) : Nat :=
  3 * stackW s + 2 * s.length + cond phase 2 1

/-- Fuel supplied to a `Scan` call. -/
def scanFuel (s : List (Pbookmark V)) : Nat := scanBound true s

/-- The stack `Scan` starts its loops from: the stored bookmarks, or a
fresh root bookmark when there are none (`ls == 0` in the source). -/
def initStack (t : PrefixTrie V) : List (Pbookmark V) :=
  match t.bookmarks with
  | [] => [⟨t.root, [], 0⟩]
  | s => s

/-- Go method `(*PrefixTrie).Scan`.  The `spin` branch is unreachable
for the cursor states the code can produce (proved below); it returns
the pre-loop state so that the definition is total. -/
def PrefixTrie.Scan (t : PrefixTrie V) : PrefixTrie V × Bool :=
  let s := initStack t
  match scanGo (scanFuel s) true s with
  | .out s' b => (⟨t.root, s'⟩, b)
  | .spin => (⟨t.root, s⟩, false)

/-- Go method `(*PrefixTrie).Pair`: key bytes and value at the top
bookmark.  Go indexes `t.bookmarks[len-1]` and panics on an empty stack;
that error case is `none`. -/
def PrefixTrie.Pair (t : PrefixTrie V) : Option (List Byte × Option V) :=
  match t.bookmarks with
  | bm :: _ => some (bm.pre, bm.n.value)
  | [] => none

/-- Go method `(*PrefixTrie).Text`: the key under the cursor. -/
def PrefixTrie.Text (t : PrefixTrie V) : Option (List Byte) :=
  match t.bookmarks with
  | bm :: _ => some bm.pre
  | [] => none

/-- One API call.  `find` is read-only in the source (`Find` walks
without writing), so it leaves the state unchanged. -/
inductive Op (V : Type) where
  | insert (key : List Byte) (v : V)
  | delete (key : List Byte)
  | scan
  | find (key : List Byte)

/-- Effect of one call on the trie state. -/
def applyOp (t : PrefixTrie V) : Op V → PrefixTrie V
  | .insert key v => t.Insert key v
  | .delete key => (t.Delete key).1
  | .scan => (t.Scan).1
  | .find _ => t

/-- Run a call sequence left to right. -/
def runOps (t : PrefixTrie V) : List (Op V) → PrefixTrie V
  | [] => t
  | op :: ops => runOps (applyOp t op) ops

/-- Whether a call inserts or deletes the given key. -/
def Op.touches (key : List Byte) : Op V → Prop
  | .insert key' _ => key' = key
  | .delete key' => key' = key
  | .scan => False
  | .find _ => False

instance (key : List Byte) (op : Op V) : Decidable (op.touches key) := by
  cases op <;> simp only [Op.touches] <;> infer_instance

/-- The full enumeration loop `for t.Scan() { ... }`, collecting
`Pair()` after every true return (with step fuel, enough for the finite
examples it is evaluated on). -/
def scanAll : Nat → PrefixTrie V → List (List Byte × Option V)
  | 0, _ => []
  | f + 1, t =>
    match t.Scan with
    | (t', true) => (t'.Pair.getD ([], none)) :: scanAll f t'
    | (_, false) => []

/-! Basic unfolding lemmas for the walk functions. -/

@[simp] theorem findNode_nil (n : PNode V) : findNode n [] = some n := rfl

theorem findNode_cons_none {n : PNode V} {b : Byte} (h : n.children b = none)
    (ks : List Byte) : findNode n (b :: ks) = none := by
  simp [findNode, h]

theorem findNode_cons_some {n c : PNode V} {b : Byte} (h : n.children b = some c)
    (ks : List Byte) : findNode n (b :: ks) = findNode c ks := by
  simp [findNode, h]

@[simp] theorem findValue_nil (n : PNode V) : findValue n [] = (n.value, n.valid) := rfl

theorem findValue_cons_none {n : PNode V} {b : Byte} (h : n.children b = none)
    (ks : List Byte) : findValue n (b :: ks) = (none, false) := by
  simp [findValue, findNode_cons_none h]

theorem findValue_cons_some {n c : PNode V} {b : Byte} (h : n.children b = some c)
    (ks : List Byte) : findValue n (b :: ks) = findValue c ks := by
  simp [findValue, findNode_cons_some h]

theorem foundB_eq_snd (n : PNode V) (key : List Byte) :
    foundB n key = (findValue n key).2 := by
  unfold foundB findValue
  cases findNode n key <;> rfl

@[simp] theorem newPnode_children (b : Byte) : (newPnode : PNode V).children b = none := rfl

@[simp] theorem newPnode_value : (newPnode : PNode V).value = none := rfl

@[simp] theorem newPnode_valid : (newPnode : PNode V).valid = false := rfl

theorem findValue_newPnode (key : List Byte) : findValue (newPnode : PNode V) key = (none, false) := by
  cases key with
  | nil => rfl
  | cons b ks => exact findValue_cons_none (newPnode_children b) ks

theorem hasChildF_of_some {ch : Byte → Option (PNode V)} {b : Byte} {c : PNode V}
    (h : ch b = some c) : hasChildF ch = true := by
  unfold hasChildF
  rw [List.any_eq_true]
  exact ⟨b, List.mem_finRange b, by simp [h]⟩

theorem exists_some_of_hasChildF {ch : Byte → Option (PNode V)}
    (h : hasChildF ch = true) : ∃ b c, ch b = some c := by
  unfold hasChildF at h
  rw [List.any_eq_true] at h
  obtain ⟨b, -, hb⟩ := h
  cases hc : ch b with
  | none => rw [hc] at hb; simp at hb
  | some c => exact ⟨b, c, hc⟩

/-! Insert lemmas. -/

@[simp] theorem insertNode_nil (n : PNode V) (v : V) :
    insertNode n [] v = .mk n.children (some v) true := rfl

theorem insertNode_cons (n : PNode V) (b : Byte) (ks : List Byte) (v : V) :
    insertNode n (b :: ks) v =
      .mk (Function.update n.children b (some (insertNode ((n.children b).getD newPnode) ks v)))
        n.value n.valid := by
  cases h : n.children b <;> simp [insertNode, h]

/-- After `Insert(key, v)`, `Find(key)` gives `(v, true)`. -/
theorem findValue_insert_self (n : PNode V) (key : List Byte) (v : V) :
    findValue (insertNode n key v) key = (some v, true) := by
  induction key generalizing n with
  | nil => simp
  | cons b ks ih =>
    rw [insertNode_cons,
      findValue_cons_some (c := insertNode ((n.children b).getD newPnode) ks v)
        (by simp [Function.update_same]) ks]
    exact ih _

/-- `Insert(key, v)` leaves `Find` at any other key literally unchanged:
untouched nodes keep their fields, and the freshly created path nodes
answer `(nil, false)` exactly as a missing child did before. -/
theorem findValue_insert_ne {key' key : List Byte} (h : key' ≠ key) (n : PNode V) (v : V) :
    findValue (insertNode n key v) key' = findValue n key' := by
  induction key' generalizing key n with
  | nil =>
    cases key with
    | nil => exact absurd rfl h
    | cons a ka => rw [insertNode_cons]; simp
  | cons b kb ih =>
    cases key with
    | nil =>
      cases hc : n.children b with
      | none =>
        rw [findValue_cons_none (n := insertNode n [] v) (by simp [hc]) kb,
          findValue_cons_none hc]
      | some c =>
        rw [findValue_cons_some (n := insertNode n [] v) (c := c) (by simp [hc]) kb,
          findValue_cons_some hc]
    | cons a ka =>
      rw [insertNode_cons]
      by_cases hab : b = a
      · subst hab
        have hk : kb ≠ ka := fun e => h (by rw [e])
        rw [findValue_cons_some (c := insertNode ((n.children b).getD newPnode) ka v)
          (by simp [Function.update_same]) kb, ih hk]
        cases hc : n.children b with
        | none => simp [findValue_newPnode, findValue_cons_none hc]
        | some c => simp [findValue_cons_some hc]
      · have hab' : b ≠ a := hab
        cases hc : n.children b with
        | none =>
          rw [findValue_cons_none (n := .mk (Function.update n.children a
              (some (insertNode ((n.children a).getD newPnode) ka v))) n.value n.valid)
            (by simp [Function.update_noteq hab', hc]) kb,
            findValue_cons_none hc]
        | some c =>
          rw [findValue_cons_some (n := .mk (Function.update n.children a
              (some (insertNode ((n.children a).getD newPnode) ka v))) n.value n.valid)
            (c := c) (by simp [Function.update_noteq hab', hc]) kb,
            findValue_cons_some hc]

/-- `Insert` never removes structure: every node reachable before stays
reachable by the same byte path. -/
theorem findNode_insert_preserves {n m : PNode V} {p : List Byte}
    (hm : findNode n p = some m) (key : List Byte) (v : V) :
    ∃ m', findNode (insertNode n key v) p = some m' := by
  induction p generalizing n m key with
  | nil => exact ⟨_, rfl⟩
  | cons b ks ih =>
    cases hc : n.children b with
    | none => rw [findNode_cons_none hc] at hm; exact absurd hm (by simp)
    | some c =>
      rw [findNode_cons_some hc] at hm
      cases key with
      | nil =>
        exact ⟨m, (findNode_cons_some (c := c) (n := insertNode n [] v) (by simp [hc]) ks).trans hm⟩
      | cons a ka =>
        rw [insertNode_cons]
        by_cases hab : b = a
        · subst hab
          obtain ⟨m', hm'⟩ := ih hm ka
          refine ⟨m', ?_⟩
          rw [findNode_cons_some (c := insertNode ((n.children b).getD newPnode) ka v)
            (by simp [Function.update_same]) ks]
          rwa [hc]
        · refine ⟨m, ?_⟩
          rw [findNode_cons_some (c := c) (by simp [Function.update_noteq hab, hc]) ks]
          exact hm

/-! Delete lemmas. -/

@[simp] theorem hasChild_mk (ch : Byte → Option (PNode V)) (v : Option V) (b : Bool) :
    (PNode.mk ch v b).hasChild = hasChildF ch := rfl

@[simp] theorem foundB_nil (n : PNode V) : foundB n [] = n.valid := rfl

theorem foundB_cons_none {n : PNode V} {b : Byte} (h : n.children b = none)
    (ks : List Byte) : foundB n (b :: ks) = false := by
  simp [foundB, findNode_cons_none h]

theorem foundB_cons_some {n c : PNode V} {b : Byte} (h : n.children b = some c)
    (ks : List Byte) : foundB n (b :: ks) = foundB c ks := by
  simp [foundB, findNode_cons_some h]

theorem deleteNode_nil_valid {n : PNode V} (h : n.valid = true) :
    deleteNode n [] =
      some (.mk n.children n.value false, !hasChildF n.children, true) := by
  simp [deleteNode, h]

theorem deleteNode_nil_invalid {n : PNode V} (h : n.valid = false) :
    deleteNode n [] = some (.mk n.children n.value false, false, false) := by
  simp [deleteNode, h]

theorem deleteNode_cons_nochild {n : PNode V} {b : Byte} (h : n.children b = none)
    (ks : List Byte) : deleteNode n (b :: ks) = none := by
  simp [deleteNode, h]

theorem deleteNode_cons_absent {n c : PNode V} {b : Byte} (hc : n.children b = some c)
    {ks : List Byte} (hd : deleteNode c ks = none) : deleteNode n (b :: ks) = none := by
  simp [deleteNode, hc, hd]

theorem deleteNode_cons_prune {n c c' : PNode V} {b : Byte} {ks : List Byte} {f : Bool}
    (hc : n.children b = some c) (hd : deleteNode c ks = some (c', true, f)) :
    deleteNode n (b :: ks) =
      some (.mk (Function.update n.children b none) n.value n.valid,
        !n.valid && !hasChildF (Function.update n.children b none), f) := by
  simp [deleteNode, hc, hd]

theorem deleteNode_cons_keep {n c c' : PNode V} {b : Byte} {ks : List Byte} {f : Bool}
    (hc : n.children b = some c) (hd : deleteNode c ks = some (c', false, f)) :
    deleteNode n (b :: ks) =
      some (.mk (Function.update n.children b (some c')) n.value n.valid, false, f) := by
  simp [deleteNode, hc, hd]

/-- The forward walk of `Delete` fails exactly where `Find`'s walk fails. -/
theorem deleteNode_eq_none_iff (n : PNode V) (key : List Byte) :
    deleteNode n key = none ↔ findNode n key = none := by
  induction key generalizing n with
  | nil => cases hv : n.valid <;> simp [deleteNode, hv]
  | cons b ks ih =>
    cases hc : n.children b with
    | none => simp [deleteNode_cons_nochild hc, findNode_cons_none hc]
    | some c =>
      rw [findNode_cons_some hc, ← ih]
      cases hd : deleteNode c ks with
      | none => simp [deleteNode_cons_absent hc hd]
      | some r =>
        obtain ⟨c', cpr, f⟩ := r
        cases cpr
        · simp [deleteNode_cons_keep hc hd]
        · simp [deleteNode_cons_prune hc hd]

/-- `Delete` returns `wasValid`: exactly the boolean `Find` returns. -/
theorem deleteNode_found {n n' : PNode V} {key : List Byte} {pr f : Bool}
    (h : deleteNode n key = some (n', pr, f)) : f = foundB n key := by
  induction key generalizing n n' pr f with
  | nil =>
    cases hv : n.valid
    · rw [deleteNode_nil_invalid hv] at h
      simp only [Option.some.injEq, Prod.mk.injEq] at h
      simp [hv, h.2.2]
    · rw [deleteNode_nil_valid hv] at h
      simp only [Option.some.injEq, Prod.mk.injEq] at h
      simp [hv, h.2.2]
  | cons b ks ih =>
    cases hc : n.children b with
    | none => rw [deleteNode_cons_nochild hc] at h; exact absurd h (by simp)
    | some c =>
      rw [foundB_cons_some hc]
      cases hd : deleteNode c ks with
      | none => rw [deleteNode_cons_absent hc hd] at h; exact absurd h (by simp)
      | some r =>
        obtain ⟨c', cpr, fc⟩ := r
        have hfc : fc = foundB c ks := ih hd
        cases cpr
        · rw [deleteNode_cons_keep hc hd] at h
          simp only [Option.some.injEq, Prod.mk.injEq] at h
          rw [← h.2.2, hfc]
        · rw [deleteNode_cons_prune hc hd] at h
          simp only [Option.some.injEq, Prod.mk.injEq] at h
          rw [← h.2.2, hfc]

/-- After a completed `Delete` walk the key is no longer stored. -/
theorem deleteNode_clears {n n' : PNode V} {key : List Byte} {pr f : Bool}
    (h : deleteNode n key = some (n', pr, f)) : foundB n' key = false := by
  induction key generalizing n n' pr f with
  | nil =>
    cases hv : n.valid
    · rw [deleteNode_nil_invalid hv] at h
      simp only [Option.some.injEq, Prod.mk.injEq] at h
      rw [← h.1]; simp
    · rw [deleteNode_nil_valid hv] at h
      simp only [Option.some.injEq, Prod.mk.injEq] at h
      rw [← h.1]; simp
  | cons b ks ih =>
    cases hc : n.children b with
    | none => rw [deleteNode_cons_nochild hc] at h; exact absurd h (by simp)
    | some c =>
      cases hd : deleteNode c ks with
      | none => rw [deleteNode_cons_absent hc hd] at h; exact absurd h (by simp)
      | some r =>
        obtain ⟨c', cpr, fc⟩ := r
        cases cpr
        · rw [deleteNode_cons_keep hc hd] at h
          simp only [Option.some.injEq, Prod.mk.injEq] at h
          rw [← h.1, foundB_cons_some (c := c') (by simp [Function.update_same]) ks]
          exact ih hd
        · rw [deleteNode_cons_prune hc hd] at h
          simp only [Option.some.injEq, Prod.mk.injEq] at h
          rw [← h.1, foundB_cons_none (by simp [Function.update_same]) ks]

/-- Deleting an absent key either fails during the walk or rebuilds the
tree unchanged: clearing an already-false flag and re-linking the same
child are no-ops. -/
theorem deleteNode_noop {n : PNode V} {key : List Byte} (h : foundB n key = false) :
    deleteNode n key = none ∨ deleteNode n key = some (n, false, false) := by
  induction key generalizing n with
  | nil =>
    refine .inr ?_
    have hv : n.valid = false := by simpa using h
    rw [deleteNode_nil_invalid hv, ← hv, PNode.eta]
  | cons b ks ih =>
    cases hc : n.children b with
    | none => exact .inl (deleteNode_cons_nochild hc ks)
    | some c =>
      rw [foundB_cons_some hc] at h
      rcases ih h with hd | hd
      · exact .inl (deleteNode_cons_absent hc hd)
      · refine .inr ?_
        rw [deleteNode_cons_keep hc hd, ← hc, Function.update_eq_self, PNode.eta]

/-- `Delete(key)` does not disturb any other stored key: the backward
cleanup only unlinks non-terminal childless nodes, which never lie on
the path of a stored key. -/
theorem deleteNode_preserves_other {key key' : List Byte} (hne : key' ≠ key)
    {n n' : PNode V} {pr f : Bool} (hstored : foundB n key' = true)
    (h : deleteNode n key = some (n', pr, f)) :
    findValue n' key' = findValue n key' ∧ pr = false := by
  induction key generalizing key' n n' pr f with
  | nil =>
    obtain ⟨b, ks, rfl⟩ : ∃ b ks, key' = b :: ks := by
      cases key' with
      | nil => exact absurd rfl hne
      | cons b ks => exact ⟨b, ks, rfl⟩
    cases hc : n.children b with
    | none => rw [foundB_cons_none hc] at hstored; exact absurd hstored (by simp)
    | some c =>
      have hchild : hasChildF n.children = true := hasChildF_of_some hc
      have hn' : n' = .mk n.children n.value false ∧ pr = false := by
        cases hv : n.valid
        · rw [deleteNode_nil_invalid hv] at h
          simp only [Option.some.injEq, Prod.mk.injEq] at h
          exact ⟨h.1.symm, h.2.1.symm⟩
        · rw [deleteNode_nil_valid hv] at h
          simp only [Option.some.injEq, Prod.mk.injEq] at h
          refine ⟨h.1.symm, ?_⟩
          rw [← h.2.1, hchild]
          rfl
      refine ⟨?_, hn'.2⟩
      rw [hn'.1, findValue_cons_some (c := c) (by simp [hc]) ks, findValue_cons_some hc ks]
  | cons a ka ih =>
    cases hc : n.children a with
    | none => rw [deleteNode_cons_nochild hc] at h; exact absurd h (by simp)
    | some c =>
      cases hd : deleteNode c ka with
      | none => rw [deleteNode_cons_absent hc hd] at h; exact absurd h (by simp)
      | some r =>
        obtain ⟨c', cpr, fc⟩ := r
        cases key' with
        | nil =>
          -- key' = [] is stored at n itself; both branches keep value and valid.
          have hv : n.valid = true := by simpa using hstored
          cases cpr
          · rw [deleteNode_cons_keep hc hd] at h
            simp only [Option.some.injEq, Prod.mk.injEq] at h
            rw [← h.1, ← h.2.1]
            simp
          · rw [deleteNode_cons_prune hc hd] at h
            simp only [Option.some.injEq, Prod.mk.injEq] at h
            rw [← h.1, ← h.2.1]
            simp [hv]
        | cons b kb =>
          by_cases hab : b = a
          · subst hab
            rw [foundB_cons_some hc] at hstored
            have hkb : kb ≠ ka := fun e => hne (by rw [e])
            obtain ⟨hfv, hcpr⟩ := ih hkb hstored hd
            subst hcpr
            rw [deleteNode_cons_keep hc hd] at h
            simp only [Option.some.injEq, Prod.mk.injEq] at h
            refine ⟨?_, h.2.1.symm⟩
            rw [← h.1, findValue_cons_some (c := c') (by simp [Function.update_same]) kb,
              findValue_cons_some hc kb, hfv]
          · have hab' : b ≠ a := hab
            obtain ⟨cb, hcb, hcbs⟩ : ∃ cb, n.children b = some cb ∧ foundB cb kb = true := by
              cases hcb : n.children b with
              | none => rw [foundB_cons_none hcb] at hstored; exact absurd hstored (by simp)
              | some cb => rw [foundB_cons_some hcb] at hstored; exact ⟨cb, rfl, hstored⟩
            cases cpr
            · rw [deleteNode_cons_keep hc hd] at h
              simp only [Option.some.injEq, Prod.mk.injEq] at h
              refine ⟨?_, h.2.1.symm⟩
              have hx : (PNode.mk (Function.update n.children a (some c')) n.value
                  n.valid).children b = some cb := by
                simp [Function.update_noteq hab', hcb]
              rw [← h.1, findValue_cons_some hx kb, findValue_cons_some hcb kb]
            · rw [deleteNode_cons_prune hc hd] at h
              simp only [Option.some.injEq, Prod.mk.injEq] at h
              have hx : (PNode.mk (Function.update n.children a none) n.value
                  n.valid).children b = some cb := by
                simp [Function.update_noteq hab', hcb]
              have hchild : hasChildF (Function.update n.children a none) = true :=
                hasChildF_of_some (b := b) (c := cb) (by simp [Function.update_noteq hab', hcb])
              constructor
              · rw [← h.1, findValue_cons_some hx kb, findValue_cons_some hcb kb]
              · rw [← h.2.1, hchild]
                simp

/-- `Delete` never turns an unstored key into a stored one. -/
theorem deleteNode_stored_mono {n n' : PNode V} {key : List Byte} {pr f : Bool}
    (h : deleteNode n key = some (n', pr, f)) {p : List Byte}
    (hp : foundB n' p = true) : foundB n p = true := by
  induction key generalizing n n' pr f p with
  | nil =>
    have hn' : n' = PNode.mk n.children n.value false := by
      cases hv : n.valid
      · rw [deleteNode_nil_invalid hv] at h
        simp only [Option.some.injEq, Prod.mk.injEq] at h
        exact h.1.symm
      · rw [deleteNode_nil_valid hv] at h
        simp only [Option.some.injEq, Prod.mk.injEq] at h
        exact h.1.symm
    subst hn'
    cases p with
    | nil => simp at hp
    | cons b ks =>
      cases hcb : n.children b with
      | none => rw [foundB_cons_none (by simp [hcb]) ks] at hp; exact absurd hp (by simp)
      | some cb =>
        rw [foundB_cons_some (c := cb) (by simp [hcb]) ks] at hp
        rw [foundB_cons_some hcb ks]
        exact hp
  | cons a ka ih =>
    cases hc : n.children a with
    | none => rw [deleteNode_cons_nochild hc] at h; exact absurd h (by simp)
    | some c =>
      cases hd : deleteNode c ka with
      | none => rw [deleteNode_cons_absent hc hd] at h; exact absurd h (by simp)
      | some r =>
        obtain ⟨c', cpr, fc⟩ := r
        have hn' :
            n' = .mk (Function.update n.children a (if cpr then none else some c')) n.value n.valid := by
          cases cpr
          · rw [deleteNode_cons_keep hc hd] at h
            simp only [Option.some.injEq, Prod.mk.injEq] at h
            rw [← h.1]
            simp
          · rw [deleteNode_cons_prune hc hd] at h
            simp only [Option.some.injEq, Prod.mk.injEq] at h
            rw [← h.1]
            simp
        subst hn'
        cases p with
        | nil => simp at hp; simp [hp]
        | cons b ks =>
          by_cases hab : b = a
          · subst hab
            cases cpr
            · rw [foundB_cons_some (c := c') (by simp [Function.update_same]) ks] at hp
              rw [foundB_cons_some hc ks]
              exact ih hd hp
            · rw [foundB_cons_none (by simp [Function.update_same]) ks] at hp
              exact absurd hp (by simp)
          · have hab' : b ≠ a := hab
            cases hcb : n.children b with
            | none =>
              rw [foundB_cons_none (by simp [Function.update_noteq hab', hcb]) ks] at hp
              exact absurd hp (by simp)
            | some cb =>
              rw [foundB_cons_some (c := cb) (by simp [Function.update_noteq hab', hcb]) ks] at hp
              rw [foundB_cons_some hcb ks]
              exact hp

/-! Trie-level lemmas. -/

theorem Find_snd_eq_foundB (t : PrefixTrie V) (key : List Byte) :
    (t.Find key).2 = foundB t.root key :=
  (foundB_eq_snd t.root key).symm

theorem Scan_root (t : PrefixTrie V) : (t.Scan).1.root = t.root := by
  show (match scanGo (scanFuel (initStack t)) true (initStack t) with
    | ScanRes.out s' b => ((⟨t.root, s'⟩ : PrefixTrie V), b)
    | ScanRes.spin => ((⟨t.root, initStack t⟩ : PrefixTrie V), false)).1.root = t.root
  cases scanGo (scanFuel (initStack t)) true (initStack t) <;> rfl

theorem applyOp_root_find (t : PrefixTrie V) :
    ∀ op : Op V, (applyOp t op).Find = (PrefixTrie.mk (applyOp t op).root []).Find := by
  intro op
  rfl

theorem Find_eq_of_root_eq {t t' : PrefixTrie V} (h : t'.root = t.root) :
    t'.Find = t.Find := by
  unfold PrefixTrie.Find
  rw [h]

theorem find_preserved_applyOp {key : List Byte} {v : V} {t : PrefixTrie V}
    (hf : t.Find key = (some v, true)) :
    ∀ op : Op V, ¬ op.touches key → (applyOp t op).Find key = (some v, true) := by
  intro op hop
  cases op with
  | insert key' v' =>
    have hne : key ≠ key' := fun e => hop (by simp [Op.touches, e])
    show findValue (insertNode t.root key' v') key = (some v, true)
    rw [findValue_insert_ne hne]
    exact hf
  | delete key' =>
    have hne : key ≠ key' := fun e => hop (by simp [Op.touches, e])
    have hstored : foundB t.root key = true := by
      rw [← Find_snd_eq_foundB, hf]
    show ((t.Delete key').1).Find key = (some v, true)
    unfold PrefixTrie.Delete
    cases hd : deleteNode t.root key' with
    | none => exact hf
    | some r =>
      obtain ⟨n', pr, f⟩ := r
      have := (deleteNode_preserves_other hne hstored hd).1
      show findValue n' key = (some v, true)
      rw [this]
      exact hf
  | scan =>
    show (t.Scan).1.Find key = (some v, true)
    rw [Find_eq_of_root_eq (Scan_root t)]
    exact hf
  | find _ => exact hf

theorem find_preserved_runOps {key : List Byte} {v : V} {t : PrefixTrie V}
    (hf : t.Find key = (some v, true)) {ops : List (Op V)}
    (h : ∀ op ∈ ops, ¬ op.touches key) : (runOps t ops).Find key = (some v, true) := by
  induction ops generalizing t with
  | nil => exact hf
  | cons op ops ih =>
    exact ih (find_preserved_applyOp hf op (h op (List.mem_cons_self op ops)))
      fun o ho => h o (List.mem_cons_of_mem op ho)

/-- C3: immediately after `Insert(key, v)`, `Find(key)` returns
`(v, true)`, and it keeps doing so after any further sequence of calls
none of which deletes or re-inserts `key`. -/
theorem insert_find_persists (t : PrefixTrie V) (key : List Byte) (v : V)
    (ops : List (Op V)) (h : ∀ op ∈ ops, ¬ op.touches key) :
    (t.Insert key v).Find key = (some v, true) ∧
      (runOps (t.Insert key v) ops).Find key = (some v, true) := by
  have hf : (t.Insert key v).Find key = (some v, true) :=
    findValue_insert_self t.root key v
  exact ⟨hf, find_preserved_runOps hf h⟩

theorem insert_find_persists_witness :
    (∀ op ∈ ([.insert [98] 7, .delete [98], .scan, .find [97]] : List (Op Nat)),
      ¬ op.touches [97]) ∧
    (runOps ((NewPrefixTrie : PrefixTrie Nat).Insert [97] 5)
      [.insert [98] 7, .delete [98], .scan, .find [97]]).Find [97] = (some 5, true) :=
  ⟨by decide, (insert_find_persists NewPrefixTrie [97] 5 _ (by decide)).2⟩

/-- C4: `Delete(key)` returns exactly the boolean `Find(key)` returned
before the call (true iff the key's node existed with `valid` set);
afterwards `Find(key)` reports not-found; and `Delete("")` on a fresh
trie — whose root was never marked valid — returns false. -/
theorem delete_returns_found :
    (∀ (t : PrefixTrie V) (key : List Byte),
      (t.Delete key).2 = (t.Find key).2 ∧ (((t.Delete key).1).Find key).2 = false) ∧
    ((NewPrefixTrie : PrefixTrie V).Delete []).2 = false := by
  constructor
  · intro t key
    constructor
    · unfold PrefixTrie.Delete
      cases hd : deleteNode t.root key with
      | none =>
        have : findNode t.root key = none := (deleteNode_eq_none_iff t.root key).mp hd
        show false = (t.Find key).2
        unfold PrefixTrie.Find findValue
        rw [this]
      | some r =>
        obtain ⟨n', pr, f⟩ := r
        show f = (t.Find key).2
        rw [Find_snd_eq_foundB]
        exact deleteNode_found hd
    · unfold PrefixTrie.Delete
      cases hd : deleteNode t.root key with
      | none =>
        have : findNode t.root key = none := (deleteNode_eq_none_iff t.root key).mp hd
        show (t.Find key).2 = false
        unfold PrefixTrie.Find findValue
        rw [this]
      | some r =>
        obtain ⟨n', pr, f⟩ := r
        show (findValue n' key).2 = false
        rw [← foundB_eq_snd]
        exact deleteNode_clears hd
  · rfl

/-- C5: deleting a key that is not stored returns false and leaves the
trie (root and cursor state) completely unchanged, so the call can be
repeated with the identical result — whether the walk stops at a
missing child or ends at a node whose `valid` flag is already false. -/
theorem delete_absent_noop (t : PrefixTrie V) (key : List Byte)
    (h : (t.Find key).2 = false) :
    t.Delete key = (t, false) ∧ ((t.Delete key).1).Delete key = (t, false) := by
  have hB : foundB t.root key = false := by rw [← Find_snd_eq_foundB, h]
  have h1 : t.Delete key = (t, false) := by
    unfold PrefixTrie.Delete
    rcases deleteNode_noop hB with hd | hd
    · rw [hd]
    · rw [hd]
  refine ⟨h1, ?_⟩
  rw [h1]
  exact h1

theorem delete_absent_noop_witness :
    (((NewPrefixTrie : PrefixTrie Nat).Find [0]).2 = false) ∧
      (NewPrefixTrie : PrefixTrie Nat).Delete [0] = (NewPrefixTrie, false) :=
  ⟨rfl, (delete_absent_noop NewPrefixTrie [0] rfl).1⟩

/-- C7: `Insert` never removes structure: every other key's `Find`
result is unchanged, every node reachable before stays reachable on the
same byte path, and only the inserted key's payload is (over)written. -/
theorem insert_frame (t : PrefixTrie V) (key : List Byte) (v : V) :
    (∀ key', key' ≠ key → (t.Insert key v).Find key' = t.Find key') ∧
      (∀ p m, findNode t.root p = some m →
        ∃ m', findNode (t.Insert key v).root p = some m') ∧
      (t.Insert key v).Find key = (some v, true) :=
  ⟨fun _ hne => findValue_insert_ne hne t.root v,
   fun _ _ hm => findNode_insert_preserves hm key v,
   findValue_insert_self t.root key v⟩

theorem insert_frame_witness :
    (((NewPrefixTrie : PrefixTrie Nat).Insert [97] 1).Insert [98] 2).Find [97] =
        ((NewPrefixTrie : PrefixTrie Nat).Insert [97] 1).Find [97] ∧
      (((NewPrefixTrie : PrefixTrie Nat).Insert [97] 1).Insert [98] 2).Find [98] =
        (some 2, true) :=
  ⟨(insert_frame ((NewPrefixTrie : PrefixTrie Nat).Insert [97] 1) [98] 2).1 [97] (by decide),
   (insert_frame ((NewPrefixTrie : PrefixTrie Nat).Insert [97] 1) [98] 2).2.2⟩

/-- C8: `Delete(key)` leaves every other stored key's `Find` result
unchanged: backward cleanup unlinks only non-terminal childless nodes,
never a node on the path of another stored key. -/
theorem delete_frame (t : PrefixTrie V) (key key' : List Byte) (hne : key' ≠ key)
    (hs : (t.Find key').2 = true) : ((t.Delete key).1).Find key' = t.Find key' := by
  have hstored : foundB t.root key' = true := by rw [← Find_snd_eq_foundB, hs]
  unfold PrefixTrie.Delete
  cases hd : deleteNode t.root key with
  | none => rfl
  | some r =>
    obtain ⟨n', pr, f⟩ := r
    exact (deleteNode_preserves_other hne hstored hd).1

theorem delete_frame_witness :
    ((((NewPrefixTrie : PrefixTrie Nat).Insert [97] 1).Insert [98] 2).Delete [97]).1.Find [98] =
      (((NewPrefixTrie : PrefixTrie Nat).Insert [97] 1).Insert [98] 2).Find [98] :=
  delete_frame (((NewPrefixTrie : PrefixTrie Nat).Insert [97] 1).Insert [98] 2)
    [97] [98] (by decide) (by decide)

set_option maxRecDepth 4000 in
/-- C10: when `Find`'s walk dies at a missing child it returns exactly
`nil`; when the walk completes at a node with `valid = false` it returns
that node's current (possibly stale) payload with `found = false`; and
since `Delete` clears only the flag, the payload of a previously deleted
key can indeed come back non-nil: after inserting "a" and "ab" and
deleting "a", `Find("a")` returns `(1, false)`. -/
theorem find_missing_nil_and_stale :
    (∀ (t : PrefixTrie V) (key : List Byte),
      findNode t.root key = none → t.Find key = (none, false)) ∧
      (∀ (t : PrefixTrie V) (key : List Byte) (n : PNode V),
        findNode t.root key = some n → n.valid = false → t.Find key = (n.value, false)) ∧
      (((((NewPrefixTrie : PrefixTrie Nat).Insert [97] 1).Insert [97, 98] 2).Delete
          [97]).1).Find [97] = (some 1, false) := by
  refine ⟨?_, ?_, by decide⟩
  · intro t key h
    unfold PrefixTrie.Find findValue
    rw [h]
  · intro t key n h hv
    unfold PrefixTrie.Find findValue
    rw [h]
    show (n.value, n.valid) = (n.value, false)
    rw [hv]

theorem find_missing_nil_and_stale_witness :
    (NewPrefixTrie : PrefixTrie Nat).Find [0] = (none, false) :=
  find_missing_nil_and_stale.1 NewPrefixTrie [0] rfl

set_option maxRecDepth 200000 in
/-- C1 (code bug): the full Scan loop must yield every stored key, the
empty key included — the Scan doc comment promises all key-value pairs
and `Find`/`Insert`/`Delete` support the empty key — but `Scan` only
tests the `valid` flag of nodes it pushes as children and never tests
the root's, so after `Insert("", 0)`, `Insert("a", 1)`, `Insert("ab", 2)`
the loop yields only `["a", "ab"]` with values `[1, 2]`, silently
skipping the stored pair `("", 0)`. -/
theorem scan_skips_empty_key :
    scanAll 10 ((((NewPrefixTrie : PrefixTrie Nat).Insert [] 0).Insert [97] 1).Insert [97, 98] 2)
      = [([97], some 1), ([97, 98], some 2)] ∧
    ((((NewPrefixTrie : PrefixTrie Nat).Insert [] 0).Insert [97] 1).Insert [97, 98] 2).Find []
      = (some 0, true) :=
  ⟨by decide, by decide⟩

set_option maxRecDepth 200000 in
/-- C2 (code bug): `Scan` is documented to restart enumeration after it
returns false, but exhaustion leaves one stale bookmark (the root, with
`k = 256`) in `t.bookmarks` — the final backtrack returns false before
truncating the slice — so the `len == 0` re-initialization never fires
again: on a trie holding just "a", the third call returns false instead
of restarting and yielding "a". -/
theorem scan_never_restarts :
    (((NewPrefixTrie : PrefixTrie Nat).Insert [97] 1).Scan).2 = true ∧
    ((((NewPrefixTrie : PrefixTrie Nat).Insert [97] 1).Scan).1.Scan).2 = false ∧
    (((((NewPrefixTrie : PrefixTrie Nat).Insert [97] 1).Scan).1.Scan).1.Scan).2 = false ∧
    ((((NewPrefixTrie : PrefixTrie Nat).Insert [97] 1).Scan).1.Scan).1.bookmarks.length = 1 :=
  ⟨by decide, by decide, by decide, by decide⟩

/-! Structural invariant: no reachable node except the root is both
childless and non-valid. -/

/-- A node that is allowed to exist on its own: it either stores a key
or lies on the path to one. -/
def goodN (n : PNode V) : Prop := n.valid = true ∨ n.hasChild = true

/-- Every strict descendant (any node reached by a nonempty byte path)
is good.  The node itself is exempt, matching the root's exemption. -/
def allGood (n : PNode V) : Prop :=
  ∀ p m, findNode n p = some m → p ≠ [] → goodN m

/-- The claim's invariant on a trie state. -/
def Inv (t : PrefixTrie V) : Prop := allGood t.root

/-- Insert a list of key-value pairs in order. -/
def insertList (t : PrefixTrie V) : List (List Byte × V) → PrefixTrie V
  | [] => t
  | (key, v) :: r => insertList (t.Insert key v) r

/-- Delete a list of keys in order. -/
def deleteList (t : PrefixTrie V) : List (List Byte) → PrefixTrie V
  | [] => t
  | key :: r => deleteList ((t.Delete key).1) r

theorem weight_mk (ch : Byte → Option (PNode V)) (v : Option V) (bo : Bool) :
    weight (.mk ch v bo) = Finset.univ.sum fun j : Byte => weightO (ch j) := by
  rw [weight]

@[simp] theorem weightO_none : weightO (none : Option (PNode V)) = 0 := by
  rw [weightO]

@[simp] theorem weightO_some (c : PNode V) : weightO (some c) = 1 + weight c := by
  rw [weightO]

set_option maxRecDepth 4000 in
theorem weight_child_lt {n c : PNode V} {b : Byte} (h : n.children b = some c) :
    weight c < weight n := by
  obtain ⟨ch, v, bo⟩ := n
  simp only [PNode.children_mk] at h
  have h1 : weightO (ch b) = 1 + weight c := by rw [h, weightO_some]
  have h2 : weightO (ch b) ≤ Finset.univ.sum fun j : Byte => weightO (ch j) :=
    Finset.single_le_sum (f := fun j : Byte => weightO (ch j)) (s := Finset.univ)
      (fun i _ => Nat.zero_le _) (Finset.mem_univ b)
  rw [weight_mk]
  omega

theorem allGood_newPnode : allGood (newPnode : PNode V) := by
  intro p m hm hp
  cases p with
  | nil => exact absurd rfl hp
  | cons b ks => rw [findNode_cons_none (newPnode_children b)] at hm; exact absurd hm (by simp)

theorem allGood_child {n c : PNode V} {b : Byte} (hg : allGood n) (hc : n.children b = some c) :
    goodN c ∧ allGood c := by
  refine ⟨hg [b] c ((findNode_cons_some hc []).trans rfl) (by simp), ?_⟩
  intro p m hm hp
  exact hg (b :: p) m (by rw [findNode_cons_some hc]; exact hm) (by simp)

theorem allGood_mk_iff (ch : Byte → Option (PNode V)) (v : Option V) (bo : Bool) :
    allGood (.mk ch v bo) ↔ ∀ b c, ch b = some c → goodN c ∧ allGood c := by
  constructor
  · intro hg b c hc
    exact allGood_child hg (by simpa using hc)
  · intro h p m hm hp
    cases p with
    | nil => exact absurd rfl hp
    | cons b ks =>
      cases hc : ch b with
      | none =>
        rw [findNode_cons_none (n := .mk ch v bo) (by simpa using hc)] at hm
        exact absurd hm (by simp)
      | some c =>
        rw [findNode_cons_some (n := .mk ch v bo) (c := c) (by simpa using hc)] at hm
        cases ks with
        | nil =>
          rw [findNode_nil, Option.some.injEq] at hm
          rw [← hm]
          exact (h b c hc).1
        | cons b2 ks2 => exact (h b c hc).2 _ m hm (by simp)

theorem allGood_insert (key : List Byte) (v : V) :
    ∀ n : PNode V, allGood n →
      allGood (insertNode n key v) ∧ goodN (insertNode n key v) := by
  induction key with
  | nil =>
    intro n hg
    constructor
    · rw [insertNode_nil, allGood_mk_iff]
      intro b c hc
      exact allGood_child hg hc
    · left
      simp
  | cons a ka ih =>
    intro n hg
    rw [insertNode_cons]
    have hgc : allGood ((n.children a).getD newPnode) := by
      cases hc : n.children a with
      | none => simpa using allGood_newPnode
      | some c => simpa using (allGood_child hg hc).2
    obtain ⟨hd1, hd2⟩ := ih _ hgc
    constructor
    · rw [allGood_mk_iff]
      intro b c hc
      by_cases hab : b = a
      · subst hab
        rw [Function.update_same, Option.some.injEq] at hc
        rw [← hc]
        exact ⟨hd2, hd1⟩
      · rw [Function.update_noteq hab] at hc
        exact allGood_child hg hc
    · right
      rw [hasChild_mk]
      exact hasChildF_of_some (b := a) (Function.update_same a _ _)

theorem deleteNode_allGood_rec (key : List Byte) :
    ∀ {n n' : PNode V} {pr f : Bool}, goodN n → allGood n →
      deleteNode n key = some (n', pr, f) →
      allGood n' ∧ (pr = false → goodN n') := by
  induction key with
  | nil =>
    intro n n' pr f hgn hg h
    have hch : ∀ b c, n.children b = some c → goodN c ∧ allGood c :=
      fun b c hc => allGood_child hg hc
    cases hv : n.valid
    · rw [deleteNode_nil_invalid hv] at h
      simp only [Option.some.injEq, Prod.mk.injEq] at h
      obtain ⟨hn', hpr, -⟩ := h
      subst hn'
      refine ⟨(allGood_mk_iff _ _ _).mpr hch, fun _ => ?_⟩
      rcases hgn with hgn | hgn
      · rw [hv] at hgn; exact absurd hgn (by simp)
      · right
        rw [hasChild_mk]
        rw [PNode.hasChild] at hgn
        exact hgn
    · rw [deleteNode_nil_valid hv] at h
      simp only [Option.some.injEq, Prod.mk.injEq] at h
      obtain ⟨hn', hpr, -⟩ := h
      subst hn'
      refine ⟨(allGood_mk_iff _ _ _).mpr hch, fun hp => ?_⟩
      right
      rw [← hpr] at hp
      rw [hasChild_mk]
      cases hx : hasChildF n.children
      · rw [hx] at hp; exact absurd hp (by simp)
      · rfl
  | cons a ka ih =>
    intro n n' pr f hgn hg h
    cases hc : n.children a with
    | none => rw [deleteNode_cons_nochild hc] at h; exact absurd h (by simp)
    | some c =>
      obtain ⟨hgc, hgac⟩ := allGood_child hg hc
      cases hd : deleteNode c ka with
      | none => rw [deleteNode_cons_absent hc hd] at h; exact absurd h (by simp)
      | some r =>
        obtain ⟨c', cpr, fc⟩ := r
        obtain ⟨hac', hgc'⟩ := ih hgc hgac hd
        cases cpr
        · rw [deleteNode_cons_keep hc hd] at h
          simp only [Option.some.injEq, Prod.mk.injEq] at h
          obtain ⟨hn', hpr, -⟩ := h
          subst hn'
          constructor
          · rw [allGood_mk_iff]
            intro b cb hcb
            by_cases hab : b = a
            · subst hab
              rw [Function.update_same, Option.some.injEq] at hcb
              rw [← hcb]
              exact ⟨hgc' rfl, hac'⟩
            · rw [Function.update_noteq hab] at hcb
              exact allGood_child hg hcb
          · intro _
            right
            rw [hasChild_mk]
            exact hasChildF_of_some (b := a) (Function.update_same a _ _)
        · rw [deleteNode_cons_prune hc hd] at h
          simp only [Option.some.injEq, Prod.mk.injEq] at h
          obtain ⟨hn', hpr, -⟩ := h
          subst hn'
          constructor
          · rw [allGood_mk_iff]
            intro b cb hcb
            by_cases hab : b = a
            · subst hab
              rw [Function.update_same] at hcb
              exact absurd hcb (by simp)
            · rw [Function.update_noteq hab] at hcb
              exact allGood_child hg hcb
          · intro hp
            rw [← hpr] at hp
            cases hv : n.valid
            · cases hx : hasChildF (Function.update n.children a none)
              · rw [hv, hx] at hp; exact absurd hp (by simp)
              · exact Or.inr hx
            · exact Or.inl rfl

/-- `Delete` preserves the invariant at the root (the root itself is
exempt from being good). -/
theorem deleteNode_allGood {n n' : PNode V} {key : List Byte} {pr f : Bool}
    (hg : allGood n) (h : deleteNode n key = some (n', pr, f)) : allGood n' := by
  cases key with
  | nil =>
    have hch : ∀ b c, n.children b = some c → goodN c ∧ allGood c :=
      fun b c hc => allGood_child hg hc
    cases hv : n.valid
    · rw [deleteNode_nil_invalid hv] at h
      simp only [Option.some.injEq, Prod.mk.injEq] at h
      rw [← h.1]
      exact (allGood_mk_iff _ _ _).mpr hch
    · rw [deleteNode_nil_valid hv] at h
      simp only [Option.some.injEq, Prod.mk.injEq] at h
      rw [← h.1]
      exact (allGood_mk_iff _ _ _).mpr hch
  | cons a ka =>
    cases hc : n.children a with
    | none => rw [deleteNode_cons_nochild hc] at h; exact absurd h (by simp)
    | some c =>
      obtain ⟨hgc, hgac⟩ := allGood_child hg hc
      cases hd : deleteNode c ka with
      | none => rw [deleteNode_cons_absent hc hd] at h; exact absurd h (by simp)
      | some r =>
        obtain ⟨c', cpr, fc⟩ := r
        obtain ⟨hac', hgc'⟩ := deleteNode_allGood_rec ka hgc hgac hd
        cases cpr
        · rw [deleteNode_cons_keep hc hd] at h
          simp only [Option.some.injEq, Prod.mk.injEq] at h
          rw [← h.1, allGood_mk_iff]
          intro b cb hcb
          by_cases hab : b = a
          · subst hab
            rw [Function.update_same, Option.some.injEq] at hcb
            rw [← hcb]
            exact ⟨hgc' rfl, hac'⟩
          · rw [Function.update_noteq hab] at hcb
            exact allGood_child hg hcb
        · rw [deleteNode_cons_prune hc hd] at h
          simp only [Option.some.injEq, Prod.mk.injEq] at h
          rw [← h.1, allGood_mk_iff]
          intro b cb hcb
          by_cases hab : b = a
          · subst hab
            rw [Function.update_same] at hcb
            exact absurd hcb (by simp)
          · rw [Function.update_noteq hab] at hcb
            exact allGood_child hg hcb

theorem Inv_applyOp {t : PrefixTrie V} (hg : Inv t) (op : Op V) : Inv (applyOp t op) := by
  cases op with
  | insert key v => exact (allGood_insert key v t.root hg).1
  | delete key =>
    show Inv (t.Delete key).1
    unfold PrefixTrie.Delete
    cases hd : deleteNode t.root key with
    | none => exact hg
    | some r =>
      obtain ⟨n', pr, f⟩ := r
      exact deleteNode_allGood hg hd
  | scan =>
    show Inv (t.Scan).1
    unfold Inv
    rw [Scan_root]
    exact hg
  | find _ => exact hg

theorem Inv_runOps (t : PrefixTrie V) (hg : Inv t) (ops : List (Op V)) :
    Inv (runOps t ops) := by
  induction ops generalizing t with
  | nil => exact hg
  | cons op ops ih => exact ih _ (Inv_applyOp hg op)

theorem Inv_NewPrefixTrie : Inv (NewPrefixTrie : PrefixTrie V) := allGood_newPnode

/-! Full-cleanup: after deleting every inserted key, the root is bare. -/

theorem foundB_newPnode (p : List Byte) : foundB (newPnode : PNode V) p = false := by
  cases p with
  | nil => rfl
  | cons b ks => exact foundB_cons_none (newPnode_children b) ks

theorem foundB_insert_subset {n : PNode V} {key p : List Byte} {v : V}
    (h : foundB (insertNode n key v) p = true) : p = key ∨ foundB n p = true := by
  by_cases hp : p = key
  · exact .inl hp
  · right
    rw [foundB_eq_snd, ← findValue_insert_ne hp n v, ← foundB_eq_snd]
    exact h

theorem foundB_insertList {S : List (List Byte × V)} :
    ∀ {t : PrefixTrie V} {p : List Byte},
      foundB (insertList t S).root p = true →
      p ∈ S.map Prod.fst ∨ foundB t.root p = true := by
  induction S with
  | nil => intro t p h; exact .inr h
  | cons kv r ih =>
    intro t p h
    obtain ⟨key, v⟩ := kv
    rcases ih h with hm | hs
    · exact .inl (by simp; right; simpa using hm)
    · rcases foundB_insert_subset hs with rfl | hs'
      · exact .inl (by simp)
      · exact .inr hs'

theorem foundB_delete_mono {t : PrefixTrie V} {key p : List Byte}
    (h : foundB ((t.Delete key).1).root p = true) : foundB t.root p = true := by
  revert h
  unfold PrefixTrie.Delete
  cases hd : deleteNode t.root key with
  | none => exact id
  | some r =>
    obtain ⟨n', pr, f⟩ := r
    exact fun h => deleteNode_stored_mono hd h

theorem foundB_delete_self (t : PrefixTrie V) (key : List Byte) :
    foundB ((t.Delete key).1).root key = false := by
  have := (delete_returns_found.1 t key).2
  rw [Find_snd_eq_foundB] at this
  exact this

theorem deleteList_clears {ks : List (List Byte)} :
    ∀ {t : PrefixTrie V}, (∀ p, foundB t.root p = true → p ∈ ks) →
      ∀ p, foundB (deleteList t ks).root p = false := by
  induction ks with
  | nil =>
    intro t h p
    cases hfb : foundB t.root p
    · exact hfb
    · exact absurd (h p hfb) (by simp)
  | cons k r ih =>
    intro t h p
    show foundB (deleteList ((t.Delete k).1) r).root p = false
    refine ih (fun q hq => ?_) p
    have hq0 : foundB t.root q = true := foundB_delete_mono hq
    rcases List.mem_cons.mp (h q hq0) with rfl | hm
    · rw [foundB_delete_self] at hq
      exact absurd hq (by simp)
    · exact hm

theorem no_stored_no_child :
    ∀ (w : Nat) (n : PNode V), weight n ≤ w → allGood n →
      (∀ p, foundB n p = false) → n.hasChild = false := by
  intro w
  induction w with
  | zero =>
    intro n hw hg hs
    cases hx : n.hasChild
    · rfl
    · obtain ⟨b, c, hc⟩ := exists_some_of_hasChildF hx
      have := weight_child_lt hc
      omega
  | succ w ih =>
    intro n hw hg hs
    cases hx : n.hasChild
    · rfl
    · exfalso
      obtain ⟨b, c, hc⟩ := exists_some_of_hasChildF hx
      obtain ⟨hgc, hgac⟩ := allGood_child hg hc
      have hsc : ∀ p, foundB c p = false := by
        intro p
        have := hs (b :: p)
        rwa [foundB_cons_some hc] at this
      have hwc : weight c ≤ w := by
        have := weight_child_lt hc
        omega
      have hnc : c.hasChild = false := ih c hwc hgac hsc
      rcases hgc with hv | hch
      · have := hsc []
        rw [foundB_nil] at this
        rw [hv] at this
        exact absurd this (by simp)
      · rw [hnc] at hch
        exact absurd hch (by simp)

theorem Inv_insertList (S : List (List Byte × V)) :
    ∀ {t : PrefixTrie V}, Inv t → Inv (insertList t S) := by
  induction S with
  | nil => intro t h; exact h
  | cons kv r ih =>
    intro t h
    obtain ⟨key, v⟩ := kv
    exact ih (Inv_applyOp h (.insert key v))

theorem Inv_deleteList (ks : List (List Byte)) :
    ∀ {t : PrefixTrie V}, Inv t → Inv (deleteList t ks) := by
  induction ks with
  | nil => intro t h; exact h
  | cons k r ih =>
    intro t h
    exact ih (Inv_applyOp h (.delete k))

/-- C6: in every state reachable from a fresh trie by Insert and Delete
calls (and read-only calls), no reachable node other than the root is
both childless and non-valid; and after inserting any list of keys and
then deleting them all, the root is again the only node (it has no
children). -/
theorem no_useless_nodes_and_full_cleanup :
    (∀ ops : List (Op V), Inv (runOps NewPrefixTrie ops)) ∧
      (∀ S : List (List Byte × V),
        (deleteList (insertList NewPrefixTrie S) (S.map Prod.fst)).root.hasChild = false) := by
  constructor
  · intro ops
    exact Inv_runOps _ Inv_NewPrefixTrie ops
  · intro S
    have hInv : Inv (deleteList (insertList (NewPrefixTrie : PrefixTrie V) S) (S.map Prod.fst)) :=
      Inv_deleteList _ (Inv_insertList S Inv_NewPrefixTrie)
    have hstored : ∀ p,
        foundB (deleteList (insertList (NewPrefixTrie : PrefixTrie V) S) (S.map Prod.fst)).root p
          = false := by
      refine deleteList_clears (fun p hp => ?_)
      rcases foundB_insertList hp with hm | hs
      · exact hm
      · rw [show (NewPrefixTrie : PrefixTrie V).root = newPnode from rfl,
          foundB_newPnode] at hs
        exact absurd hs (by simp)
    exact no_stored_no_child _ _ (Nat.le_refl _) hInv hstored

/-! Termination of the Scan loops: the supplied fuel `scanFuel` always
suffices, so the Go loops always exit. -/

/-- Cursor indices the code can produce: `k` never exceeds 256. -/
def stackOK (s : List (Pbookmark V)) : Prop := ∀ bm ∈ s, bm.k ≤ 256

theorem weightFrom_eq (n : PNode V) (k : Nat) (h : k < 256) :
    weightFrom n k = weightO (n.children ⟨k, h⟩) + weightFrom n (k + 1) := by
  unfold weightFrom
  have h2 : 256 - k = (256 - (k + 1)) + 1 := by omega
  rw [h2, weightFromGo, dif_pos h]

theorem weightFrom_ge (n : PNode V) (k : Nat) (h : 256 ≤ k) : weightFrom n k = 0 := by
  unfold weightFrom
  have h2 : 256 - k = 0 := by omega
  rw [h2, weightFromGo]

theorem weightFromGo_sum (n : PNode V) :
    ∀ gas k, k + gas = 256 →
      weightFromGo n k gas =
        Finset.univ.sum fun j : Byte => if k ≤ j.val then weightO (n.children j) else 0 := by
  intro gas
  induction gas with
  | zero =>
    intro k hk
    rw [weightFromGo]
    refine (Finset.sum_eq_zero ?_).symm
    intro j _
    have : ¬ k ≤ j.val := by have := j.isLt; omega
    rw [if_neg this]
  | succ gas ih =>
    intro k hk
    have h : k < 256 := by omega
    rw [weightFromGo, dif_pos h, ih (k + 1) (by omega)]
    have hsplit : ∀ j : Byte,
        (if k ≤ j.val then weightO (n.children j) else 0) =
          (if j = ⟨k, h⟩ then weightO (n.children j) else 0) +
            (if k + 1 ≤ j.val then weightO (n.children j) else 0) := by
      intro j
      by_cases hj : j = ⟨k, h⟩
      · subst hj
        simp
      · have hjv : j.val ≠ k := fun e => hj (Fin.ext e)
        rw [if_neg hj, Nat.zero_add]
        by_cases hle : k ≤ j.val
        · rw [if_pos hle, if_pos (by omega)]
        · rw [if_neg hle, if_neg (by omega)]
    rw [Finset.sum_congr rfl fun j _ => hsplit j, Finset.sum_add_distrib,
      Finset.sum_ite_eq' Finset.univ (⟨k, h⟩ : Byte) fun j => weightO (n.children j)]
    simp [Nat.add_comm]

theorem weight_eq_weightFrom_zero (n : PNode V) : weight n = weightFrom n 0 := by
  obtain ⟨ch, v, bo⟩ := n
  rw [weight_mk]
  unfold weightFrom
  rw [weightFromGo_sum _ 256 0 rfl]
  refine Finset.sum_congr rfl fun j _ => ?_
  rw [if_pos (Nat.zero_le _), PNode.children_mk]

theorem nextChildGo_weight {n : PNode V} :
    ∀ gas k (j : Byte) (c : PNode V), k + gas = 256 →
      nextChildGo n k gas = some (j, c) →
      k ≤ j.val ∧ weightFrom n k = 1 + weight c + weightFrom n (j.val + 1) := by
  intro gas
  induction gas with
  | zero => intro k j c hk h; rw [nextChildGo] at h; exact absurd h (by simp)
  | succ gas ih =>
    intro k j c hk h
    have hlt : k < 256 := by omega
    rw [nextChildGo, dif_pos hlt] at h
    cases hc : n.children ⟨k, hlt⟩ with
    | some c0 =>
      rw [hc] at h
      simp only [Option.some.injEq, Prod.mk.injEq] at h
      obtain ⟨rfl, rfl⟩ := h
      refine ⟨Nat.le_refl _, ?_⟩
      rw [weightFrom_eq n k hlt, hc, weightO_some]
    | none =>
      rw [hc] at h
      obtain ⟨h1, h2⟩ := ih (k + 1) j c (by omega) h
      refine ⟨by omega, ?_⟩
      rw [weightFrom_eq n k hlt, hc, weightO_none, Nat.zero_add]
      exact h2

theorem nextChild_weight {n : PNode V} {k : Nat} {j : Byte} {c : PNode V}
    (hk : k ≤ 256) (h : nextChild n k = some (j, c)) :
    k ≤ j.val ∧ weightFrom n k = 1 + weightFrom c 0 + weightFrom n (j.val + 1) := by
  have := nextChildGo_weight (256 - k) k j c (by omega) h
  rwa [weight_eq_weightFrom_zero] at this

@[simp] theorem stackW_nil : stackW ([] : List (Pbookmark V)) = 0 := rfl

@[simp] theorem stackW_cons (bm : Pbookmark V) (rest : List (Pbookmark V)) :
    stackW (bm :: rest) = weightFrom bm.n bm.k + stackWAux rest := rfl

@[simp] theorem stackWAux_nil : stackWAux ([] : List (Pbookmark V)) = 0 := rfl

@[simp] theorem stackWAux_cons (bm : Pbookmark V) (rest : List (Pbookmark V)) :
    stackWAux (bm :: rest) = weightFrom bm.n (bm.k + 1) + stackWAux rest := rfl

theorem scanGo_zero (phase : Bool) (s : List (Pbookmark V)) :
    scanGo 0 phase s = .spin := rfl

theorem scanGo_nil (g : Nat) (phase : Bool) :
    scanGo (g + 1) phase ([] : List (Pbookmark V)) = .out [] false := by
  cases phase <;> rfl

theorem scanGo_true_some {bm : Pbookmark V} {j : Byte} {c : PNode V}
    (h : nextChild bm.n bm.k = some (j, c)) (g : Nat) (rest : List (Pbookmark V)) :
    scanGo (g + 1) true (bm :: rest) =
      if c.valid then
        .out (⟨c, bm.pre ++ [j], 0⟩ :: ⟨bm.n, bm.pre, j.val⟩ :: rest) true
      else scanGo g true (⟨c, bm.pre ++ [j], 0⟩ :: ⟨bm.n, bm.pre, j.val⟩ :: rest) := by
  simp [scanGo, h]

theorem scanGo_true_none {bm : Pbookmark V} (h : nextChild bm.n bm.k = none)
    (g : Nat) (rest : List (Pbookmark V)) :
    scanGo (g + 1) true (bm :: rest) = scanGo g false (⟨bm.n, bm.pre, 256⟩ :: rest) := by
  simp [scanGo, h]

theorem scanGo_false_single (g : Nat) (bm : Pbookmark V) :
    scanGo (g + 1) false [bm] = .out [bm] false := rfl

theorem scanGo_false_pop {nxt : Pbookmark V} (h : nxt.k = 256) (g : Nat)
    (bm : Pbookmark V) (r2 : List (Pbookmark V)) :
    scanGo (g + 1) false (bm :: nxt :: r2) = scanGo g false (nxt :: r2) := by
  simp [scanGo, h]

theorem scanGo_false_go {nxt : Pbookmark V} (h : ¬ nxt.k = 256) (g : Nat)
    (bm : Pbookmark V) (r2 : List (Pbookmark V)) :
    scanGo (g + 1) false (bm :: nxt :: r2) =
      scanGo g true (⟨nxt.n, nxt.pre, nxt.k + 1⟩ :: r2) := by
  have hb : (nxt.k == 256) = false := by simp [h]
  simp [scanGo, hb]

theorem stackOK_cons {bm : Pbookmark V} {s : List (Pbookmark V)} :
    stackOK (bm :: s) ↔ bm.k ≤ 256 ∧ stackOK s := by
  unfold stackOK
  exact List.forall_mem_cons

/-- Any fuel at least `scanBound` makes `scanGo` finish, with a result
independent of the exact fuel, and the resulting stack again has all
cursor indices at most 256.  One unit of fuel is one iteration of one of
the two Go loops, so this is exactly the statement that the loops
terminate. -/
theorem scanGo_fuel (w : Nat) :
    ∀ (phase : Bool) (s : List (Pbookmark V)) (f₁ f₂ : Nat), stackOK s →
      scanBound phase s ≤ w → scanBound phase s ≤ f₁ → scanBound phase s ≤ f₂ →
      scanGo f₁ phase s = scanGo f₂ phase s ∧ scanGo f₁ phase s ≠ .spin ∧
        ∀ s' b, scanGo f₁ phase s = .out s' b → stackOK s' := by
  induction w using Nat.strong_induction_on with
  | _ w ih =>
    intro phase s f₁ f₂ hOK hw h1 h2
    have hpos : 1 ≤ scanBound phase s := by
      unfold scanBound
      cases phase <;> simp only [Bool.cond_false, Bool.cond_true] <;> omega
    obtain ⟨g₁, rfl⟩ : ∃ g, f₁ = g + 1 := ⟨f₁ - 1, by omega⟩
    obtain ⟨g₂, rfl⟩ : ∃ g, f₂ = g + 1 := ⟨f₂ - 1, by omega⟩
    cases s with
    | nil =>
      rw [scanGo_nil, scanGo_nil]
      refine ⟨rfl, by simp, ?_⟩
      intro s' b hsb
      simp only [ScanRes.out.injEq] at hsb
      rw [← hsb.1]
      intro x hx
      exact absurd hx (by simp)
    | cons bm rest =>
      obtain ⟨hbmk, hOKr⟩ := stackOK_cons.mp hOK
      cases phase with
      | true =>
        cases hnc : nextChild bm.n bm.k with
        | some jc =>
          obtain ⟨j, c⟩ := jc
          obtain ⟨hkj, hwt⟩ := nextChild_weight hbmk hnc
          have hOK' : stackOK ((⟨c, bm.pre ++ [j], 0⟩ : Pbookmark V) ::
              (⟨bm.n, bm.pre, j.val⟩ : Pbookmark V) :: rest) := by
            rw [stackOK_cons, stackOK_cons]
            refine ⟨show (0 : Nat) ≤ 256 by omega, show j.val ≤ 256 from ?_, hOKr⟩
            have := j.isLt
            omega
          have hSB : scanBound true ((⟨c, bm.pre ++ [j], 0⟩ : Pbookmark V) ::
              (⟨bm.n, bm.pre, j.val⟩ : Pbookmark V) :: rest) + 1 = scanBound true (bm :: rest) := by
            simp only [scanBound, stackW_cons, stackWAux_cons, List.length_cons,
              Bool.cond_true]
            rw [hwt]
            omega
          rw [scanGo_true_some hnc g₁ rest, scanGo_true_some hnc g₂ rest]
          cases hv : c.valid
          · simp only [hv, Bool.false_eq_true, if_false]
            have hlt : scanBound true ((⟨c, bm.pre ++ [j], 0⟩ : Pbookmark V) ::
                (⟨bm.n, bm.pre, j.val⟩ : Pbookmark V) :: rest) < w := by omega
            exact ih _ hlt true _ g₁ g₂ hOK' (by omega) (by omega) (by omega)
          · simp only [hv, if_true]
            refine ⟨by trivial, by simp, ?_⟩
            intro s' b hsb
            simp only [ScanRes.out.injEq] at hsb
            rw [← hsb.1]
            exact hOK'
        | none =>
          have hOK₂ : stackOK ((⟨bm.n, bm.pre, 256⟩ : Pbookmark V) :: rest) := by
            rw [stackOK_cons]
            exact ⟨Nat.le_refl _, hOKr⟩
          have hw256 : weightFrom bm.n 256 = 0 := weightFrom_ge bm.n 256 (Nat.le_refl _)
          have hPB : scanBound false ((⟨bm.n, bm.pre, 256⟩ : Pbookmark V) :: rest) + 1 ≤
              scanBound true (bm :: rest) := by
            simp only [scanBound, stackW_cons, stackWAux_cons, List.length_cons,
              Bool.cond_true, Bool.cond_false]
            rw [hw256]
            omega
          rw [scanGo_true_none hnc g₁ rest, scanGo_true_none hnc g₂ rest]
          have hlt : scanBound false ((⟨bm.n, bm.pre, 256⟩ : Pbookmark V) :: rest) < w := by
            omega
          exact ih _ hlt false _ g₁ g₂ hOK₂ (by omega) (by omega) (by omega)
      | false =>
        cases rest with
        | nil =>
          rw [scanGo_false_single, scanGo_false_single]
          refine ⟨rfl, by simp, ?_⟩
          intro s' b hsb
          simp only [ScanRes.out.injEq] at hsb
          rw [← hsb.1]
          exact hOK
        | cons nxt r2 =>
          obtain ⟨hnk, hOK2⟩ := stackOK_cons.mp hOKr
          by_cases hk : nxt.k = 256
          · have hw256 : weightFrom nxt.n nxt.k = 0 := by
              rw [hk]
              exact weightFrom_ge nxt.n 256 (Nat.le_refl _)
            have hw257 : weightFrom nxt.n (nxt.k + 1) = 0 := by
              rw [hk]
              exact weightFrom_ge nxt.n 257 (by omega)
            have hPB : scanBound false (nxt :: r2) + 1 ≤
                scanBound false (bm :: nxt :: r2) := by
              simp only [scanBound, stackW_cons, stackWAux_cons, List.length_cons,
                Bool.cond_false]
              rw [hw256, hw257]
              omega
            rw [scanGo_false_pop hk g₁ bm r2, scanGo_false_pop hk g₂ bm r2]
            have hlt : scanBound false (nxt :: r2) < w := by omega
            exact ih _ hlt false _ g₁ g₂ hOKr (by omega) (by omega) (by omega)
          · have hOK₃ : stackOK ((⟨nxt.n, nxt.pre, nxt.k + 1⟩ : Pbookmark V) :: r2) := by
              rw [stackOK_cons]
              exact ⟨show nxt.k + 1 ≤ 256 by omega, hOK2⟩
            have hSB : scanBound true ((⟨nxt.n, nxt.pre, nxt.k + 1⟩ : Pbookmark V) :: r2) + 1 ≤
                scanBound false (bm :: nxt :: r2) := by
              simp only [scanBound, stackW_cons, stackWAux_cons, List.length_cons,
                Bool.cond_true, Bool.cond_false]
              omega
            rw [scanGo_false_go hk g₁ bm r2, scanGo_false_go hk g₂ bm r2]
            have hlt : scanBound true ((⟨nxt.n, nxt.pre, nxt.k + 1⟩ : Pbookmark V) :: r2) < w := by
              omega
            exact ih _ hlt true _ g₁ g₂ hOK₃ (by omega) (by omega) (by omega)

/-- Cursor-state wellformedness of a trie. -/
def trieOK (t : PrefixTrie V) : Prop := stackOK t.bookmarks

theorem Scan_bookmarks (t : PrefixTrie V) :
    (t.Scan).1.bookmarks =
      match scanGo (scanFuel (initStack t)) true (initStack t) with
      | ScanRes.out s' _ => s'
      | ScanRes.spin => initStack t := by
  show (match scanGo (scanFuel (initStack t)) true (initStack t) with
    | ScanRes.out s' b => ((⟨t.root, s'⟩ : PrefixTrie V), b)
    | ScanRes.spin => ((⟨t.root, initStack t⟩ : PrefixTrie V), false)).1.bookmarks = _
  cases scanGo (scanFuel (initStack t)) true (initStack t) <;> rfl

theorem stackOK_initStack {t : PrefixTrie V} (h : trieOK t) : stackOK (initStack t) := by
  unfold trieOK at h
  cases hb : t.bookmarks with
  | nil =>
    have he : initStack t = [⟨t.root, [], 0⟩] := by
      unfold initStack
      rw [hb]
    rw [he, stackOK_cons]
    exact ⟨show (0 : Nat) ≤ 256 by omega, fun x hx => absurd hx (by simp)⟩
  | cons bm r =>
    have he : initStack t = bm :: r := by
      unfold initStack
      rw [hb]
    rw [he, ← hb]
    exact h

theorem trieOK_applyOp {t : PrefixTrie V} (h : trieOK t) (op : Op V) :
    trieOK (applyOp t op) := by
  cases op with
  | insert key v => exact h
  | delete key =>
    show trieOK (t.Delete key).1
    unfold PrefixTrie.Delete
    cases hd : deleteNode t.root key with
    | none => exact h
    | some r =>
      obtain ⟨n', pr, f⟩ := r
      exact h
  | find _ => exact h
  | scan =>
    show trieOK (t.Scan).1
    have hOK := stackOK_initStack h
    obtain ⟨-, -, hok⟩ := scanGo_fuel (scanBound true (initStack t)) true (initStack t)
      (scanFuel (initStack t)) (scanFuel (initStack t)) hOK (Nat.le_refl _) (Nat.le_refl _)
      (Nat.le_refl _)
    unfold trieOK
    rw [Scan_bookmarks]
    cases hg : scanGo (scanFuel (initStack t)) true (initStack t) with
    | out s' b => exact hok s' b hg
    | spin => exact hOK

theorem trieOK_runOps {t : PrefixTrie V} (h : trieOK t) (ops : List (Op V)) :
    trieOK (runOps t ops) := by
  induction ops generalizing t with
  | nil => exact h
  | cons op ops ih => exact ih (trieOK_applyOp h op)

theorem trieOK_NewPrefixTrie : trieOK (NewPrefixTrie : PrefixTrie V) :=
  fun x hx => absurd hx (by simp [NewPrefixTrie])

/-- C9: the operations always terminate.  `Find`, `Insert` and `Delete`
walk one key byte per step and the accessors read one stack cell, so
they are total by construction (they are plain structural recursions
above).  The non-obvious case is `Scan`'s pair of nested loops, embedded
step-for-step in the fuel-indexed `scanGo`: on every trie and cursor
state reachable by prior calls from a fresh trie, the fuel `scanFuel`
(one unit per loop iteration) is never exhausted — the loops exit — and
handing the loops any more steps cannot change the result. -/
theorem operations_terminate (ops : List (Op V)) :
    scanGo (scanFuel (initStack (runOps NewPrefixTrie ops))) true
        (initStack (runOps NewPrefixTrie ops)) ≠ ScanRes.spin ∧
      ∀ f, scanFuel (initStack (runOps NewPrefixTrie ops)) ≤ f →
        scanGo f true (initStack (runOps NewPrefixTrie ops)) =
          scanGo (scanFuel (initStack (runOps NewPrefixTrie ops))) true
            (initStack (runOps NewPrefixTrie ops)) := by
  have hOK : stackOK (initStack (runOps (NewPrefixTrie : PrefixTrie V) ops)) :=
    stackOK_initStack (trieOK_runOps trieOK_NewPrefixTrie ops)
  constructor
  · exact (scanGo_fuel (scanBound true _) true _ _ _ hOK (Nat.le_refl _) (Nat.le_refl _)
      (Nat.le_refl _)).2.1
  · intro f hf
    exact (scanGo_fuel (scanBound true _) true _ f _ hOK (Nat.le_refl _) hf (Nat.le_refl _)).1

end Gotrie
